import Mathlib

/-!
Verification of the `CountingWords` word-frequency counter.

Modelling choices, shared by every definition below:
* a Python string is a `List Char`;
* a Python dict is an insertion-ordered association list with unique keys
  (`List (key × value)`), built exactly as the source builds its dicts;
* the whitespace set of `str.split()` is the ASCII whitespace characters;
* `str.lower()` is `Char.toLower` applied to every character;
* the file system behind `open` is a partial map from paths to contents;
* Python's dynamic typing, where a claim needs it, is the inductive `PyVal`,
  and raised exceptions are `Except.error` of a `PyErr`.
-/

/-- A Python string, modelled as a list of characters. -/
abbrev PyStr := List Char

/-- The whitespace characters recognised by `str.split()`:
space, tab, newline, carriage return, vertical tab, form feed. -/
def pyIsSpace (c : Char) : Bool :=
  c = Char.ofNat 32 || c = Char.ofNat 9 || c = Char.ofNat 10 ||
  c = Char.ofNat 13 || c = Char.ofNat 11 || c = Char.ofNat 12

/-- The space character used by `' '.join`. -/
def spaceChar : Char := Char.ofNat 32

/-- Embedding of `' '.join(corpus)`: concatenate the strings with a single
space between consecutive elements. -/
def joinWithSpace : List PyStr → PyStr
  | [] => []
  | [s] => s
  | s :: s2 :: rest => s ++ spaceChar :: joinWithSpace (s2 :: rest)

/-- Worker for `pySplit`: `cur` holds the characters of the current token,
in reverse order. -/
def pySplitAux : List Char → List Char → List PyStr
  | [], cur => if cur.isEmpty then [] else [cur.reverse]
  | c :: cs, cur =>
    if pyIsSpace c then
      if cur.isEmpty then pySplitAux cs [] else cur.reverse :: pySplitAux cs []
    else
      pySplitAux cs (c :: cur)

/-- Embedding of `s.split()` (no separator argument): the maximal runs of
non-whitespace characters of `s`, in order. -/
def pySplit (s : PyStr) : List PyStr := pySplitAux s []

/-- One step of the dict-building loop of `count_words`:
`if word in word_count: word_count[word] += 1 else: word_count[word] = 1`.
Updating an existing key keeps its position; a new key goes to the end. -/
def addWord (w : PyStr) : List (PyStr × Nat) → List (PyStr × Nat)
  | [] => [(w, 1)]
  | (k, v) :: rest => if k = w then (k, v + 1) :: rest else (k, v) :: addWord w rest

/-- The whole dict-building loop of `count_words` over a token list. -/
def tally (words : List PyStr) : List (PyStr × Nat) :=
  words.foldl (fun acc w => addWord w acc) []

/-- First-match lookup in an association list (Python `dict[key]`, as
`Option`). -/
def dictGet : List (PyStr × Nat) → PyStr → Option Nat
  | [], _ => none
  | (k, v) :: rest, w => if k = w then some v else dictGet rest w

/-- Sum of the values of an association list. -/
def sumVals (l : List (PyStr × Nat)) : Nat := (l.map Prod.snd).sum

/-- Embedding of `CountingWords.count_words(corpus, filter)` on a corpus that
is a list of strings (the dynamically typed wrapper is `count_words_dyn`). -/
def count_words (corpus : List PyStr) (filter : Option Nat) : List (PyStr × Nat) :=
  let corpus_text := joinWithSpace corpus
  let words := pySplit corpus_text
  let word_count := tally words
  match filter with
  | none => word_count
  | some f => word_count.filter (fun p => f ≤ p.2)

/-- Embedding of `CountingWords.filter_function(results, min_occurrences)`:
keep the pairs whose value is at least `min_occurrences` (source default 4). -/
def filter_function (results : List (PyStr × Nat)) (min_occurrences : Nat) :
    List (PyStr × Nat) :=
  results.filter (fun p => min_occurrences ≤ p.2)

/-- Errors raised by the embedded code. -/
inductive PyErr where
  | assertionError : String → PyErr
  | typeError : PyErr
  | fileNotFound : String → PyErr
deriving DecidableEq

/-- Embedding of `CountingWords.count_words_from_files(file_path, filter)`.
The file system is a partial map `fs` from paths to file contents; `open` on
a path outside its domain raises `FileNotFoundError`, which the source
catches and re-raises with the message below. -/
def count_words_from_files (fs : PyStr → Option PyStr) (file_path : PyStr)
    (filter : Option Nat) : Except PyErr (List (PyStr × Nat)) :=
  match fs file_path with
  | none => Except.error (PyErr.fileNotFound "The specified file does not exist.")
  | some corpus =>
    let words := pySplit corpus
    let word_count := tally words
    Except.ok (match filter with
      | none => word_count
      | some f => word_count.filter (fun p => f ≤ p.2))

/-- A dynamically typed Python value, as far as the claims need one. -/
inductive PyVal where
  | str : PyStr → PyVal
  | int : Int → PyVal
  | list : List PyVal → PyVal

/-- The string-extraction performed by `' '.join(corpus)`: all elements must
be strings, otherwise `join` raises `TypeError` (modelled as `none`). -/
def getStrs : List PyVal → Option (List PyStr)
  | [] => some []
  | PyVal.str s :: rest => (getStrs rest).map (fun ss => s :: ss)
  | _ => none

/-- Embedding of `count_words` including its dynamic type behaviour:
`assert type(corpus) is list` raises `AssertionError` on a non-list, and
`' '.join(corpus)` raises `TypeError` when some element is not a string. -/
def count_words_dyn (corpus : PyVal) (filter : Option Nat) :
    Except PyErr (List (PyStr × Nat)) :=
  match corpus with
  | PyVal.list xs =>
    match getStrs xs with
    | none => Except.error PyErr.typeError
    | some strs => Except.ok (count_words strs filter)
  | _ => Except.error (PyErr.assertionError "The corpus to analyse needs to be a list of strings")

/-- Embedding of `CountingWords.map_function(text)` (the generator, run to a
list): one `(word, 1)` pair per token of the lowercased input. -/
def map_function (text : PyStr) : List (PyStr × Nat) :=
  (pySplit (text.map Char.toLower)).map (fun w => (w, 1))

/-- Embedding of `CountingWords.apply_map(data)`: apply `map_function` to
every string and append all results in order. -/
def apply_map (data : List PyStr) : List (PyStr × Nat) :=
  data.foldl (fun results element => results ++ map_function element) []

/-- One step of the grouping loop of `group_function`: append `v` to the list
of an existing key, or add a new key at the end with the one-element list. -/
def addGroup (k : PyStr) (v : Nat) :
    List (PyStr × List Nat) → List (PyStr × List Nat)
  | [] => [(k, [v])]
  | (k2, vs) :: rest =>
    if k2 = k then (k2, vs ++ [v]) :: rest else (k2, vs) :: addGroup k v rest

/-- Embedding of `CountingWords.group_function(map_results)`. -/
def group_function (map_results : List (PyStr × Nat)) : List (PyStr × List Nat) :=
  map_results.foldl (fun acc p => addGroup p.1 p.2 acc) []

/-- Embedding of `CountingWords.reduce_function(key, values)`: the key with
the sum of its counts. -/
def reduce_function (key : PyStr) (values : List Nat) : PyStr × Nat :=
  (key, values.foldl (fun total count => total + count) 0)

/-- Embedding of `CountingWords.apply_reduce(group_results)`. -/
def apply_reduce (group_results : List (PyStr × List Nat)) : List (PyStr × Nat) :=
  group_results.map (fun p => (p.1, (reduce_function p.1 p.2).2))

/-- Spec-side tokenizer, following the spec text: split the string at each
whitespace character and discard the empty fragments. -/
def specTokens (s : PyStr) : List PyStr :=
  (s.splitOnP pyIsSpace).filter (fun t => !t.isEmpty)

/-- Spec-side tally of one token: the number of occurrences of `x` in a
token list. -/
def countOcc (x : PyStr) : List PyStr → Nat
  | [] => 0
  | w :: ws => (if w = x then 1 else 0) + countOcc x ws

theorem pySplitAux_eq_go (s cur : List Char) :
    pySplitAux s cur =
      (List.splitOnP.go pyIsSpace s cur).filter (fun t => !t.isEmpty) := by
  induction s generalizing cur with
  | nil =>
    cases cur with
    | nil => simp [pySplitAux, List.splitOnP.go]
    | cons a as => simp [pySplitAux, List.splitOnP.go, List.filter_cons]
  | cons c cs ih =>
    simp only [pySplitAux, List.splitOnP.go]
    by_cases hc : pyIsSpace c
    · simp only [hc, if_true, List.filter_cons]
      cases cur with
      | nil => simp [ih]
      | cons a as => simp [ih]
    · simp [hc, ih]

theorem pySplit_eq_specTokens (s : PyStr) : pySplit s = specTokens s := by
  simpa [pySplit, specTokens, List.splitOnP] using pySplitAux_eq_go s []

theorem pySplitAux_append_space (b : List Char) :
    ∀ (a cur : List Char),
      pySplitAux (a ++ spaceChar :: b) cur = pySplitAux a cur ++ pySplitAux b [] := by
  intro a
  induction a with
  | nil =>
    intro cur
    have hsp : pyIsSpace spaceChar = true := by decide
    simp only [List.nil_append, pySplitAux, hsp, if_true]
    cases cur <;> simp [pySplitAux]
  | cons c cs ih =>
    intro cur
    simp only [List.cons_append, pySplitAux]
    by_cases hc : pyIsSpace c
    · simp only [hc, if_true]
      cases cur <;> simp [ih]
    · simp [hc, ih]

theorem pySplit_joinWithSpace (xs : List PyStr) :
    pySplit (joinWithSpace xs) = (xs.map pySplit).flatten := by
  induction xs with
  | nil => simp [joinWithSpace, pySplit, pySplitAux]
  | cons x rest ih =>
    cases rest with
    | nil => simp [joinWithSpace]
    | cons y rest2 =>
      have happ : pySplit (x ++ spaceChar :: joinWithSpace (y :: rest2)) =
          pySplit x ++ pySplit (joinWithSpace (y :: rest2)) :=
        pySplitAux_append_space (joinWithSpace (y :: rest2)) x []
      simp [joinWithSpace, happ, ih]

theorem pySplit_of_all_space (s : PyStr) (h : ∀ c ∈ s, pyIsSpace c = true) :
    pySplit s = [] := by
  rw [pySplit]
  induction s with
  | nil => simp [pySplitAux]
  | cons c cs ih =>
    have hc : pyIsSpace c = true := h c (List.mem_cons_self c cs)
    simp only [pySplitAux, hc, if_true, List.isEmpty_nil, if_true]
    exact ih (fun d hd => h d (List.mem_cons_of_mem c hd))

theorem dictGet_addWord (w : PyStr) (l : List (PyStr × Nat)) (x : PyStr) :
    dictGet (addWord w l) x =
      if w = x then some ((dictGet l x).getD 0 + 1) else dictGet l x := by
  induction l with
  | nil =>
    by_cases hwx : w = x <;> simp [addWord, dictGet, hwx]
  | cons p rest ih =>
    obtain ⟨k, v⟩ := p
    by_cases hkw : k = w
    · subst hkw
      by_cases hwx : k = x <;> simp [addWord, dictGet, hwx]
    · by_cases hkx : k = x
      · have hwx : ¬ w = x := fun h2 => hkw (hkx.trans h2.symm)
        have hxw : ¬ x = w := fun h2 => hwx h2.symm
        simp [addWord, dictGet, hkw, hkx, hwx, hxw]
      · simp [addWord, dictGet, hkw, hkx, ih]

theorem dictGet_foldl_addWord (ws : List PyStr) :
    ∀ (acc : List (PyStr × Nat)) (x : PyStr),
      dictGet (List.foldl (fun a w => addWord w a) acc ws) x =
        match dictGet acc x with
        | some n => some (n + countOcc x ws)
        | none => if x ∈ ws then some (countOcc x ws) else none := by
  induction ws with
  | nil =>
    intro acc x
    cases h : dictGet acc x <;> simp [countOcc, h]
  | cons w ws ih =>
    intro acc x
    simp only [List.foldl_cons]
    rw [ih (addWord w acc) x, dictGet_addWord]
    by_cases hwx : w = x
    · subst hwx
      cases h : dictGet acc w <;> simp [h, countOcc, List.mem_cons, Nat.add_comm, Nat.add_assoc, Nat.add_left_comm]
    · have hxw : ¬ x = w := fun h => hwx h.symm
      cases h : dictGet acc x <;> simp [hwx, h, countOcc, List.mem_cons, hxw]

theorem dictGet_tally (ws : List PyStr) (x : PyStr) :
    dictGet (tally ws) x = if x ∈ ws then some (countOcc x ws) else none := by
  rw [tally, dictGet_foldl_addWord ws [] x]
  simp [dictGet]

theorem keys_addWord (w : PyStr) (l : List (PyStr × Nat)) :
    (addWord w l).map Prod.fst =
      if w ∈ l.map Prod.fst then l.map Prod.fst else l.map Prod.fst ++ [w] := by
  induction l with
  | nil => simp [addWord]
  | cons p rest ih =>
    obtain ⟨k, v⟩ := p
    by_cases hkw : k = w
    · subst hkw
      simp [addWord]
    · have hwk : ¬ w = k := fun h => hkw h.symm
      by_cases hmem : w ∈ rest.map Prod.fst <;> simp [addWord, hkw, hwk, hmem, ih]

theorem keys_nodup_addWord (w : PyStr) (l : List (PyStr × Nat))
    (h : (l.map Prod.fst).Nodup) : ((addWord w l).map Prod.fst).Nodup := by
  rw [keys_addWord]
  by_cases hmem : w ∈ l.map Prod.fst
  · simpa [hmem] using h
  · simp only [hmem, if_false]
    rw [List.nodup_append]
    exact ⟨h, List.nodup_singleton w, by simpa using hmem⟩

theorem keys_nodup_foldl_addWord (ws : List PyStr) :
    ∀ acc : List (PyStr × Nat), (acc.map Prod.fst).Nodup →
      ((List.foldl (fun a w => addWord w a) acc ws).map Prod.fst).Nodup := by
  induction ws with
  | nil => intro acc h; simpa using h
  | cons w ws ih =>
    intro acc h
    exact ih (addWord w acc) (keys_nodup_addWord w acc h)

theorem tally_keys_nodup (ws : List PyStr) : ((tally ws).map Prod.fst).Nodup :=
  keys_nodup_foldl_addWord ws [] (by simp)

theorem sumVals_addWord (w : PyStr) (l : List (PyStr × Nat)) :
    sumVals (addWord w l) = sumVals l + 1 := by
  induction l with
  | nil => simp [addWord, sumVals]
  | cons p rest ih =>
    obtain ⟨k, v⟩ := p
    by_cases hkw : k = w <;> simp [addWord, sumVals, hkw] <;> simp [sumVals] at ih <;> omega

theorem sumVals_foldl_addWord (ws : List PyStr) :
    ∀ acc : List (PyStr × Nat),
      sumVals (List.foldl (fun a w => addWord w a) acc ws) = sumVals acc + ws.length := by
  induction ws with
  | nil => intro acc; simp
  | cons w ws ih =>
    intro acc
    simp only [List.foldl_cons, List.length_cons]
    rw [ih (addWord w acc), sumVals_addWord]
    omega

theorem sumVals_tally (ws : List PyStr) : sumVals (tally ws) = ws.length := by
  rw [tally, sumVals_foldl_addWord ws []]
  simp [sumVals]

theorem pos_addWord (w : PyStr) (l : List (PyStr × Nat))
    (h : ∀ p ∈ l, 1 ≤ p.2) : ∀ p ∈ addWord w l, 1 ≤ p.2 := by
  induction l with
  | nil => intro p hp; simp [addWord] at hp; simp [hp]
  | cons q rest ih =>
    obtain ⟨k, v⟩ := q
    intro p hp
    by_cases hkw : k = w
    · subst hkw
      simp only [addWord, if_true] at hp
      rcases List.mem_cons.mp hp with h1 | h2
      · simp [h1]
      · exact h p (List.mem_cons_of_mem _ h2)
    · simp only [addWord, hkw, if_false] at hp
      rcases List.mem_cons.mp hp with h1 | h2
      · exact h p (by simp [h1])
      · exact ih (fun q hq => h q (List.mem_cons_of_mem _ hq)) p h2

theorem pos_foldl_addWord (ws : List PyStr) :
    ∀ acc : List (PyStr × Nat), (∀ p ∈ acc, 1 ≤ p.2) →
      ∀ p ∈ List.foldl (fun a w => addWord w a) acc ws, 1 ≤ p.2 := by
  induction ws with
  | nil => intro acc h; simpa using h
  | cons w ws ih =>
    intro acc h
    exact ih (addWord w acc) (pos_addWord w acc h)

theorem pos_tally (ws : List PyStr) : ∀ p ∈ tally ws, 1 ≤ p.2 :=
  pos_foldl_addWord ws [] (by simp)

theorem dictGet_eq_none_of_not_mem_keys (l : List (PyStr × Nat)) (x : PyStr)
    (h : x ∉ l.map Prod.fst) : dictGet l x = none := by
  induction l with
  | nil => simp [dictGet]
  | cons p rest ih =>
    obtain ⟨k, v⟩ := p
    simp only [List.map_cons, List.mem_cons, not_or] at h
    have hkx : ¬ k = x := fun he => h.1 he.symm
    simp [dictGet, hkx, ih h.2]

theorem dictGet_filter (l : List (PyStr × Nat)) (f : Nat) (x : PyStr)
    (hnd : (l.map Prod.fst).Nodup) :
    dictGet (l.filter (fun p => f ≤ p.2)) x =
      match dictGet l x with
      | some v => if f ≤ v then some v else none
      | none => none := by
  induction l with
  | nil => simp [dictGet]
  | cons p rest ih =>
    obtain ⟨k, v⟩ := p
    simp only [List.map_cons, List.nodup_cons] at hnd
    by_cases hkx : k = x
    · subst hkx
      by_cases hf : f ≤ v
      · simp [List.filter_cons, hf, dictGet]
      · have hnone : dictGet (rest.filter (fun p => f ≤ p.2)) k = none := by
          apply dictGet_eq_none_of_not_mem_keys
          intro hmem
          apply hnd.1
          have hsub : ((rest.filter (fun p => f ≤ p.2)).map Prod.fst).Sublist (rest.map Prod.fst) :=
            List.Sublist.map Prod.fst (List.filter_sublist rest)
          exact hsub.mem hmem
        simp [List.filter_cons, hf, dictGet, hnone]
    · by_cases hf : f ≤ v <;>
        simp [List.filter_cons, hf, dictGet, hkx, ih hnd.2]

theorem count_words_none (corpus : List PyStr) :
    count_words corpus none = tally (pySplit (joinWithSpace corpus)) := rfl

theorem count_words_some (corpus : List PyStr) (f : Nat) :
    count_words corpus (some f) =
      (tally (pySplit (joinWithSpace corpus))).filter (fun p => f ≤ p.2) := rfl

theorem reduce_function_append_one (vs : List Nat) (key : PyStr) :
    (reduce_function key (vs ++ [1])).2 = (reduce_function key vs).2 + 1 := by
  simp [reduce_function, List.foldl_append]

theorem apply_reduce_addGroup (w : PyStr) (g : List (PyStr × List Nat)) :
    apply_reduce (addGroup w 1 g) = addWord w (apply_reduce g) := by
  induction g with
  | nil => simp [addGroup, apply_reduce, addWord, reduce_function]
  | cons p rest ih =>
    obtain ⟨k, vs⟩ := p
    by_cases hkw : k = w
    · simp [addGroup, apply_reduce, addWord, hkw, reduce_function_append_one]
    · simp only [addGroup, apply_reduce, List.map_cons, addWord, hkw, if_false]
      refine congrArg (List.cons _) ?_
      simpa [apply_reduce] using ih

theorem apply_reduce_foldl_addGroup (ws : List PyStr) :
    ∀ g : List (PyStr × List Nat),
      apply_reduce
          (List.foldl (fun acc p => addGroup p.1 p.2 acc) g
            (ws.map (fun w => (w, 1)))) =
        List.foldl (fun a w => addWord w a) (apply_reduce g) ws := by
  induction ws with
  | nil => intro g; simp
  | cons w ws ih =>
    intro g
    simp only [List.map_cons, List.foldl_cons]
    rw [ih (addGroup w 1 g), apply_reduce_addGroup]

theorem group_reduce_eq_tally (ws : List PyStr) :
    apply_reduce (group_function (ws.map (fun w => (w, 1)))) = tally ws := by
  rw [group_function, tally, apply_reduce_foldl_addGroup ws []]
  rfl

theorem foldl_append_acc (f : PyStr → List (PyStr × Nat)) (data : List PyStr) :
    ∀ acc : List (PyStr × Nat),
      List.foldl (fun results element => results ++ f element) acc data =
        acc ++ (data.map f).flatten := by
  induction data with
  | nil => intro acc; simp
  | cons d ds ih =>
    intro acc
    simp [ih (acc ++ f d)]

theorem apply_map_eq_flatten (data : List PyStr) :
    apply_map data =
      ((data.map (fun s => pySplit (s.map Char.toLower))).flatten).map
        (fun w => (w, 1)) := by
  rw [apply_map, foldl_append_acc map_function data []]
  simp only [List.nil_append, List.map_flatten, List.map_map]
  rfl

theorem getStrs_eq_none (xs : List PyVal) (x : PyVal) (hx : x ∈ xs)
    (hns : ∀ s, x ≠ PyVal.str s) : getStrs xs = none := by
  induction xs with
  | nil => simp at hx
  | cons y ys ih =>
    cases y with
    | str s =>
      rcases List.mem_cons.mp hx with h1 | h2
      · exact absurd h1 (hns s)
      · simp [getStrs, ih h2]
    | int n => simp [getStrs]
    | list l => simp [getStrs]

theorem mem_joinWithSpace (corpus : List PyStr) (c : Char)
    (hc : c ∈ joinWithSpace corpus) : c = spaceChar ∨ ∃ s ∈ corpus, c ∈ s := by
  induction corpus with
  | nil => simp [joinWithSpace] at hc
  | cons x rest ih =>
    cases rest with
    | nil =>
      simp only [joinWithSpace] at hc
      exact Or.inr ⟨x, List.mem_cons_self x [], hc⟩
    | cons y rest2 =>
      simp only [joinWithSpace] at hc
      rcases List.mem_append.mp hc with h1 | h2
      · exact Or.inr ⟨x, List.mem_cons_self x (y :: rest2), h1⟩
      · rcases List.mem_cons.mp h2 with h3 | h4
        · exact Or.inl h3
        · rcases ih h4 with h5 | ⟨s, hs, hcs⟩
          · exact Or.inl h5
          · exact Or.inr ⟨s, List.mem_cons_of_mem x hs, hcs⟩

/-- Claim C1: for every list of strings and optional threshold, `count_words`
returns exactly the mapping the spec describes: join the strings with single
spaces, split on whitespace discarding empty fragments, tally each exact token
case-sensitively, and when a threshold is given keep only the entries whose
count is at least the threshold. -/
theorem claim_C1_count_words_matches_spec (corpus : List PyStr) (th : Option Nat)
    (x : PyStr) :
    dictGet (count_words corpus th) x =
      (if x ∈ specTokens (joinWithSpace corpus) ∧
          (∀ t ∈ th, t ≤ countOcc x (specTokens (joinWithSpace corpus))) then
        some (countOcc x (specTokens (joinWithSpace corpus)))
      else none) := by
  cases th with
  | none =>
    rw [count_words_none, pySplit_eq_specTokens, dictGet_tally]
    simp
  | some T =>
    rw [count_words_some, pySplit_eq_specTokens,
      dictGet_filter _ _ _ (tally_keys_nodup _), dictGet_tally]
    by_cases hmem : x ∈ specTokens (joinWithSpace corpus)
    · by_cases hT : T ≤ countOcc x (specTokens (joinWithSpace corpus)) <;>
        simp [hmem, hT]
    · simp [hmem]

/-- Claim C2: giving `count_words` a threshold is the same as filtering the
unthresholded result through `filter_function` with that threshold. -/
theorem claim_C2_threshold_eq_filter_function (corpus : List PyStr) (T : Nat) :
    count_words corpus (some T) = filter_function (count_words corpus none) T := rfl

/-- Claim C3: the staged pipeline `apply_reduce (group_function (apply_map corpus))`
produces the same mapping as `count_words` on the corpus with every string
lowercased, with no threshold on either side. -/
theorem claim_C3_mapreduce_eq_count_words_lowered (corpus : List PyStr) :
    apply_reduce (group_function (apply_map corpus)) =
      count_words (corpus.map (fun s => s.map Char.toLower)) none := by
  rw [apply_map_eq_flatten, group_reduce_eq_tally, count_words_none,
    pySplit_joinWithSpace, List.map_map]
  rfl

/-- Claim C4 counterexample: the list `[0]` is not a sequence of strings, yet
`count_words` does not fail at its precondition check with the invalid-input
assertion error; it fails later, in the join, with a type error. -/
theorem claim_C4_counterexample :
    count_words_dyn (PyVal.list [PyVal.int 0]) none = Except.error PyErr.typeError ∧
    PyErr.typeError ≠
      PyErr.assertionError "The corpus to analyse needs to be a list of strings" :=
  ⟨rfl, fun h => PyErr.noConfusion h⟩

/-- Claim C4 (amended): a non-list input fails immediately at the precondition
check with the invalid-input assertion error, but a list containing a
non-string element passes that check and instead fails with a type error when
the strings are joined; in both cases the failure happens before any counting
and no mapping is produced. -/
theorem claim_C4_amended_invalid_input (v : PyVal) (th : Option Nat) :
    ((∀ xs, v ≠ PyVal.list xs) →
      count_words_dyn v th =
        Except.error
          (PyErr.assertionError "The corpus to analyse needs to be a list of strings")) ∧
    (∀ xs, v = PyVal.list xs →
      (∃ x ∈ xs, ∀ s, x ≠ PyVal.str s) →
      count_words_dyn v th = Except.error PyErr.typeError) := by
  constructor
  · intro h
    cases v with
    | str s => rfl
    | int n => rfl
    | list xs => exact absurd rfl (h xs)
  · rintro xs rfl ⟨x, hx, hns⟩
    simp [count_words_dyn, getStrs_eq_none xs x hx hns]

/-- Witness for the amended claim C4 at concrete inputs: the integer `3` and
the list `[0]`. -/
theorem claim_C4_amended_witness :
    count_words_dyn (PyVal.int 3) none =
      Except.error
        (PyErr.assertionError "The corpus to analyse needs to be a list of strings") ∧
    count_words_dyn (PyVal.list [PyVal.int 0]) none = Except.error PyErr.typeError :=
  ⟨(claim_C4_amended_invalid_input (PyVal.int 3) none).1
      (fun _xs h => PyVal.noConfusion h),
   (claim_C4_amended_invalid_input (PyVal.list [PyVal.int 0]) none).2
      [PyVal.int 0] rfl
      ⟨PyVal.int 0, List.mem_singleton.mpr rfl, fun _s h => PyVal.noConfusion h⟩⟩

/-- Claim C5: `count_words_from_files` returns the not-found error with its
descriptive message exactly when the path has no file, and on an existing file
it returns a word-count mapping. -/
theorem claim_C5_not_found_error (fs : PyStr → Option PyStr) (path : PyStr)
    (th : Option Nat) :
    (count_words_from_files fs path th =
        Except.error (PyErr.fileNotFound "The specified file does not exist.") ↔
      fs path = none) ∧
    (∀ s, fs path = some s →
      ∃ m, count_words_from_files fs path th = Except.ok m) := by
  constructor
  · constructor
    · intro h
      cases hfs : fs path with
      | none => rfl
      | some s =>
        rw [count_words_from_files, hfs] at h
        exact Except.noConfusion h
    · intro h
      rw [count_words_from_files, h]
  · intro s hs
    cases th with
    | none =>
      exact ⟨tally (pySplit s), by rw [count_words_from_files, hs]⟩
    | some f =>
      exact ⟨(tally (pySplit s)).filter (fun p => f ≤ p.2),
        by rw [count_words_from_files, hs]⟩

/-- Witness for claim C5: a file system holding one file named `a`; reading
`a` succeeds and reading `b` gives the not-found error. -/
theorem claim_C5_witness :
    (∃ m, count_words_from_files
        (fun p => if p = ['a'] then some ['x'] else none) ['a'] none =
      Except.ok m) ∧
    count_words_from_files
        (fun p => if p = ['a'] then some ['x'] else none) ['b'] none =
      Except.error (PyErr.fileNotFound "The specified file does not exist.") :=
  ⟨(claim_C5_not_found_error _ ['a'] none).2 ['x'] rfl,
   ((claim_C5_not_found_error _ ['b'] none).1).mpr rfl⟩

/-- Claim C6: `count_words_from_files` on a file containing `s` returns
exactly `count_words [s]` with the same threshold. -/
theorem claim_C6_file_eq_singleton_corpus (fs : PyStr → Option PyStr)
    (path s : PyStr) (th : Option Nat) (hs : fs path = some s) :
    count_words_from_files fs path th = Except.ok (count_words [s] th) := by
  cases th with
  | none => rw [count_words_from_files, hs]; rfl
  | some f => rw [count_words_from_files, hs]; rfl

/-- Witness for claim C6 at a concrete file system, path and content. -/
theorem claim_C6_witness :
    count_words_from_files
        (fun p => if p = ['a'] then some ['b', spaceChar, 'b'] else none)
        ['a'] (some 2) =
      Except.ok (count_words [['b', spaceChar, 'b']] (some 2)) :=
  claim_C6_file_eq_singleton_corpus _ ['a'] _ (some 2) rfl

/-- Claim C7: without a threshold the counts of `count_words` sum to the
number of whitespace-delimited tokens of the concatenated corpus. -/
theorem claim_C7_sum_counts_eq_token_count (corpus : List PyStr) :
    sumVals (count_words corpus none) =
      (pySplit (joinWithSpace corpus)).length := by
  rw [count_words_none, sumVals_tally]

/-- Claim C8: re-applying `filter_function` with the same or a smaller
threshold changes nothing. -/
theorem claim_C8_filter_function_idempotent (r : List (PyStr × Nat))
    (T T2 : Nat) (h : T2 ≤ T) :
    filter_function (filter_function r T) T2 = filter_function r T := by
  induction r with
  | nil => rfl
  | cons p rest ih =>
    by_cases hp : T ≤ p.2
    · have hp2 : T2 ≤ p.2 := le_trans h hp
      simpa [filter_function, List.filter_cons, hp, hp2] using ih
    · simpa [filter_function, List.filter_cons, hp] using ih

/-- Witness for claim C8 at a concrete mapping and thresholds `2 ≥ 1`. -/
theorem claim_C8_witness :
    filter_function (filter_function [(['a'], 3), (['b'], 1)] 2) 1 =
      filter_function [(['a'], 3), (['b'], 1)] 2 :=
  claim_C8_filter_function_idempotent [(['a'], 3), (['b'], 1)] 2 1 (by decide)

/-- Claim C9: the empty corpus yields the empty mapping, and so does any
corpus whose strings contain only whitespace characters. -/
theorem claim_C9_empty_and_whitespace_corpora :
    count_words ([] : List PyStr) none = [] ∧
    ∀ corpus : List PyStr,
      (∀ s ∈ corpus, ∀ c ∈ s, pyIsSpace c = true) →
      count_words corpus none = [] := by
  constructor
  · rfl
  · intro corpus h
    rw [count_words_none]
    have hsplit : pySplit (joinWithSpace corpus) = [] := by
      apply pySplit_of_all_space
      intro c hc
      rcases mem_joinWithSpace corpus c hc with h1 | ⟨s, hs, hcs⟩
      · rw [h1]; decide
      · exact h s hs c hcs
    rw [hsplit]
    rfl

/-- Witness for claim C9: a corpus of a space-tab string and an empty string. -/
theorem claim_C9_witness :
    count_words [[spaceChar, Char.ofNat 9], []] none = [] :=
  claim_C9_empty_and_whitespace_corpora.2 [[spaceChar, Char.ofNat 9], []]
    (by decide)

/-- Claim C10: every count in an unthresholded result is at least one, for
`count_words`, for `count_words_from_files`, and for the staged
map-group-reduce pipeline. -/
theorem claim_C10_counts_positive :
    (∀ corpus : List PyStr, ∀ p ∈ count_words corpus none, 1 ≤ p.2) ∧
    (∀ (fs : PyStr → Option PyStr) (path : PyStr) (m : List (PyStr × Nat)),
      count_words_from_files fs path none = Except.ok m → ∀ p ∈ m, 1 ≤ p.2) ∧
    (∀ corpus : List PyStr,
      ∀ p ∈ apply_reduce (group_function (apply_map corpus)), 1 ≤ p.2) := by
  refine ⟨?_, ?_, ?_⟩
  · intro corpus p hp
    rw [count_words_none] at hp
    exact pos_tally _ p hp
  · intro fs path m hm p hp
    cases hfs : fs path with
    | none =>
      rw [count_words_from_files, hfs] at hm
      exact Except.noConfusion hm
    | some s =>
      rw [count_words_from_files, hfs] at hm
      have hm2 : tally (pySplit s) = m := by
        simpa using hm
      rw [← hm2] at hp
      exact pos_tally _ p hp
  · intro corpus p hp
    rw [apply_map_eq_flatten, group_reduce_eq_tally] at hp
    exact pos_tally _ p hp

/-- Witness for claim C10: a concrete file read whose counts are positive. -/
theorem claim_C10_witness : 1 ≤ ((['a'], 2) : PyStr × Nat).2 :=
  claim_C10_counts_positive.2.1 (fun _ => some ['a', spaceChar, 'a']) []
    [(['a'], 2)] rfl (['a'], 2) (by decide)
